import Mathlib

/-!
Verification of the transcode-profile resolution engine of go-noice
(`src/config.go`), shallowly embedded in Lean.

Modelling conventions:
* Go strings are modelled as `List Char`; Go `int` is modelled as `Int`,
  with `strconv.Atoi`'s signed-64-bit range check made explicit in `atoi`.
* The process-global variables `sourceResolution` and `sourceFramerate`
  (declared outside `config.go`) are passed as explicit parameters, as the
  spec's design notes direct for a pure reimplementation.
* File-system effects of `NewConfig` are modelled by explicit state passing
  over `GoFS`; the external collaborators (JSON decode/encode of the
  configuration record, the wallet seed generator) are parameters.
-/

namespace GoNoice

/-- The `Transcode` struct of `config.go`: one resolved transcode target. -/
structure Transcode where
  resolution : Int
  framerate : Int
  deriving DecidableEq

/-- The `Config` struct of `config.go` (seed, title, owner, transcoder tokens). -/
structure Config where
  seed : String
  title : String
  owner : String
  transcoders : List (List Char)
  deriving DecidableEq

/-- `strings.Split v "p"`: split a token on every occurrence of the
separator character `p`.  Always returns at least one segment. -/
def splitOnP : List Char → List (List Char)
  | [] => [[]]
  | c :: cs =>
    match splitOnP cs with
    | [] => [[]]
    | s :: ss => if c = 'p' then [] :: s :: ss else (c :: s) :: ss

/-- Numeric value of a decimal digit character, `none` for non-digits. -/
def digitVal (c : Char) : Option Nat :=
  if '0' ≤ c ∧ c ≤ '9' then some (c.toNat - '0'.toNat) else none

/-- Accumulating decimal parse over the remaining characters; fails on the
first non-digit. -/
def parseNatAux : List Char → Nat → Option Nat
  | [], acc => some acc
  | c :: cs, acc =>
    match digitVal c with
    | some d => parseNatAux cs (10 * acc + d)
    | none => none

/-- Parse a non-empty all-digit string as a natural number. -/
def parseNat : List Char → Option Nat
  | [] => none
  | c :: cs => parseNatAux (c :: cs) 0

/-- `strconv.Atoi`: an optional sign followed by at least one decimal digit,
with the value required to fit in a signed 64-bit `int` (Go returns
`ErrRange` otherwise, which the caller treats like any parse failure). -/
def atoi (cs : List Char) : Option Int :=
  match cs with
  | [] => none
  | c :: rest =>
    if c = '-' then
      match parseNat rest with
      | some n => if n ≤ 2 ^ 63 then some (-(n : Int)) else none
      | none => none
    else if c = '+' then
      match parseNat rest with
      | some n => if n < 2 ^ 63 then some (n : Int) else none
      | none => none
    else
      match parseNat (c :: rest) with
      | some n => if n < 2 ^ 63 then some (n : Int) else none
      | none => none

/-- The purely syntactic part of the per-token loop body of `getTranscoders`
(lines 84–103 of `config.go`): split on `p`, parse the resolution from the
first segment, parse the framerate from the second segment when the split
produced exactly two segments and the second is non-empty, defaulting the
framerate to 30 otherwise.  This is the spec's ProfileParser stage;
`processToken_eq_parse_validate` below proves it composes with `validate`
to the exact source behavior. -/
def parseToken (v : List Char) : Option Transcode :=
  match atoi ((splitOnP v).headD []) with
  | none => none
  | some resolution =>
    match
      (if (splitOnP v).length = 2 ∧ (splitOnP v).getD 1 [] ≠ [] then
        atoi ((splitOnP v).getD 1 [])
      else some 30) with
    | none => none
    | some fr => some ⟨resolution, fr⟩

/-- The source-relative part of the per-token loop body of `getTranscoders`:
skip when `sourceResolution <= resolution` (line 91), clamp the framerate to
the source framerate (lines 105–108), skip when resolution and (clamped)
framerate both equal the source (lines 110–113). -/
def validate (sourceResolution sourceFramerate : Int) (t : Transcode) : Option Transcode :=
  if sourceResolution ≤ t.resolution then none
  else
    let framerate := if sourceFramerate < t.framerate then sourceFramerate else t.framerate
    if sourceResolution = t.resolution ∧ framerate = sourceFramerate then none
    else some ⟨t.resolution, framerate⟩

/-- The whole loop body of `getTranscoders` for one token, exactly in source
order: parse the resolution, check it against the source resolution, then
parse (or default) the framerate, clamp it, and apply the no-op check.
`none` models `continue`. -/
def processToken (sourceResolution sourceFramerate : Int) (v : List Char) : Option Transcode :=
  match atoi ((splitOnP v).headD []) with
  | none => none
  | some resolution =>
    if sourceResolution ≤ resolution then none
    else
      match
        (if (splitOnP v).length = 2 ∧ (splitOnP v).getD 1 [] ≠ [] then
          atoi ((splitOnP v).getD 1 [])
        else some 30) with
      | none => none
      | some fr =>
        let framerate := if sourceFramerate < fr then sourceFramerate else fr
        if sourceResolution = resolution ∧ framerate = sourceFramerate then none
        else some ⟨resolution, framerate⟩

/-- The comparator passed to `sort.SliceStable` in
`removeDuplicateTranscodes`: resolution descending, then framerate
descending. -/
def transLess (a b : Transcode) : Bool :=
  if a.resolution = b.resolution then decide (b.framerate < a.framerate)
  else decide (b.resolution < a.resolution)

/-- Insert into an already sorted list, placing the new element before the
first element it is not strictly after; combined with `sortTranscodes` this
realises a stable sort by `transLess` (ties keep input order). -/
def insertTrans (x : Transcode) : List Transcode → List Transcode
  | [] => [x]
  | y :: ys => if transLess y x then y :: insertTrans x ys else x :: y :: ys

/-- Stable sort of the transcode list by `transLess`, modelling
`sort.SliceStable` (equivalent elements under the comparator are equal
`Transcode` values, so any comparator-respecting sort produces the same
list). -/
def sortTranscodes : List Transcode → List Transcode
  | [] => []
  | x :: xs => insertTrans x (sortTranscodes xs)

/-- Lookup in the `seen` association list, modelling the
`map[int]int` read `seen[transcode.Resolution]`. -/
def seenLookup (r : Int) : List (Int × Int) → Option Int
  | [] => none
  | (k, f) :: rest => if r = k then some f else seenLookup r rest

/-- The scan loop of `removeDuplicateTranscodes`: keep a transcode when its
resolution is unseen or its framerate strictly exceeds the recorded one, and
record it; otherwise drop it. -/
def dedupScan : List Transcode → List (Int × Int) → List Transcode
  | [], _ => []
  | t :: ts, seen =>
    match seenLookup t.resolution seen with
    | none => t :: dedupScan ts ((t.resolution, t.framerate) :: seen)
    | some prev =>
      if prev < t.framerate then t :: dedupScan ts ((t.resolution, t.framerate) :: seen)
      else dedupScan ts seen

/-- `removeDuplicateTranscodes` of `config.go`: stable sort by
`(resolution desc, framerate desc)`, then a single scan keeping the best
framerate per resolution. -/
def removeDuplicateTranscodes (transcodes : List Transcode) : List Transcode :=
  dedupScan (sortTranscodes transcodes) []

/-- `getTranscoders` of `config.go`, with the process globals passed
explicitly: run the per-token loop over `config.Transcoders` and
deduplicate the accepted candidates. -/
def getTranscoders (sourceResolution sourceFramerate : Int) (config : Config) : List Transcode :=
  removeDuplicateTranscodes
    (config.transcoders.filterMap (processToken sourceResolution sourceFramerate))

/-- A configuration record carrying only transcoder tokens (the other
fields are irrelevant to `getTranscoders`); used to state concrete
pipeline runs. -/
def cfgOf (tokens : List (List Char)) : Config :=
  { seed := "", title := "", owner := "", transcoders := tokens }

/-- A token is positivity-clean when every segment that `atoi` parses at all
parses to a strictly positive value.  Used to state the amended form of the
positivity invariant (the source accepts `0` and signed values). -/
def tokenPositive (v : List Char) : Bool :=
  (splitOnP v).all fun s =>
    match atoi s with
    | some n => decide (0 < n)
    | none => true

/-- The decimal digit character for a value below ten. -/
def digitChar : Nat → Char
  | 0 => '0'
  | 1 => '1'
  | 2 => '2'
  | 3 => '3'
  | 4 => '4'
  | 5 => '5'
  | 6 => '6'
  | 7 => '7'
  | 8 => '8'
  | _ => '9'

/-- The canonical decimal rendering of a natural number (no sign, no leading
zeros), used to state the parser claims about tokens `"<r>p<f>"`. -/
def renderNat (n : Nat) : List Char :=
  if n < 10 then [digitChar n]
  else renderNat (n / 10) ++ [digitChar (n % 10)]
termination_by n
decreasing_by exact Nat.div_lt_self (by omega) (by omega)

/-- The two files `NewConfig` may touch, modelled as explicit state: the
configuration file passed to `NewConfig` and `mediamtx.yml`.  `none` means
the file does not exist; `some s` holds its contents. -/
structure GoFS where
  configFile : Option String
  mediamtxFile : Option String
  deriving DecidableEq

/-- Stands for the embedded mediamtx configuration template of `config.go`
(a verbatim third-party configuration file; its text is irrelevant to every
property verified here, only the fact that a fixed constant is written). -/
def mediaMTXDefaults : String :=
  "# mediamtx default configuration template"

/-- `generateMediaMTXConfig` of `config.go`: write the default template to
`mediamtx.yml` only when that file does not exist. -/
def generateMediaMTXConfig (fs : GoFS) : GoFS :=
  match fs.mediamtxFile with
  | none => { fs with mediamtxFile := some mediaMTXDefaults }
  | some _ => fs

/-- `NewConfig` of `config.go` with its effects made explicit.  The external
collaborators are parameters: `decode` is the JSON decoding of the stored
record (`none` models a decode error), `encode` is `json.MarshalIndent`, and
`newSeed` is the hex-encoded seed of the freshly generated wallet.  Returns
the final file-system state and the configuration (`none` models returning a
non-nil error). -/
def newConfig (decode : String → Option Config) (encode : Config → String)
    (newSeed : String) (fs : GoFS) : GoFS × Option Config :=
  let fs1 := generateMediaMTXConfig fs
  match fs1.configFile with
  | none =>
    let defaultConfig : Config :=
      { seed := newSeed, title := "Unnamed Stream", owner := "", transcoders := [] }
    ({ fs1 with configFile := some (encode defaultConfig) }, some defaultConfig)
  | some contents =>
    match decode contents with
    | none => (fs1, none)
    | some cfg =>
      let cfg2 := if cfg.title = "" then { cfg with title := "Unnamed Stream" } else cfg
      (fs1, some cfg2)

/-! ### Facts about the comparator -/

lemma transLess_asymm {a b : Transcode} (h : transLess a b = true) : transLess b a = false := by
  rcases a with ⟨ar, af⟩; rcases b with ⟨br, bf⟩
  simp only [transLess] at h ⊢
  split_ifs at h ⊢ <;> simp_all <;> omega

lemma transLess_neg_trans {a b c : Transcode} (h1 : transLess b a = false)
    (h2 : transLess c b = false) : transLess c a = false := by
  rcases a with ⟨ar, af⟩; rcases b with ⟨br, bf⟩; rcases c with ⟨cr, cf⟩
  simp only [transLess] at h1 h2 ⊢
  split_ifs at h1 h2 ⊢ <;> simp_all <;> omega

lemma transLess_antisymm {a b : Transcode} (h1 : transLess b a = false)
    (h2 : transLess a b = false) : a = b := by
  rcases a with ⟨ar, af⟩; rcases b with ⟨br, bf⟩
  simp only [transLess] at h1 h2
  simp only [Transcode.mk.injEq]
  split_ifs at h1 h2 <;> simp_all <;> omega

lemma transLess_false_same_res {u t : Transcode} (h : transLess u t = false)
    (hres : u.resolution = t.resolution) : u.framerate ≤ t.framerate := by
  rcases u with ⟨ur, uf⟩; rcases t with ⟨tr, tf⟩
  simp only [transLess] at h
  simp only at hres
  split_ifs at h <;> simp_all <;> omega

lemma transLess_false_elim {a b : Transcode} (h : transLess b a = false) :
    b.resolution < a.resolution ∨
      (b.resolution = a.resolution ∧ b.framerate ≤ a.framerate) := by
  rcases a with ⟨ar, af⟩; rcases b with ⟨br, bf⟩
  simp only [transLess] at h
  simp only
  split_ifs at h <;> simp_all <;> omega

/-! ### The sort: permutation and sortedness -/

lemma mem_insertTrans {z x : Transcode} : ∀ {l : List Transcode},
    z ∈ insertTrans x l → z = x ∨ z ∈ l
  | [], h => by simpa [insertTrans] using h
  | y :: ys, h => by
    simp only [insertTrans] at h
    split_ifs at h with hc
    · rcases List.mem_cons.mp h with h | h
      · exact Or.inr (h ▸ List.mem_cons_self y ys)
      · rcases mem_insertTrans h with h | h
        · exact Or.inl h
        · exact Or.inr (List.mem_cons_of_mem y h)
    · simpa using h

lemma insertTrans_perm (x : Transcode) : ∀ l : List Transcode,
    (insertTrans x l).Perm (x :: l)
  | [] => List.Perm.refl _
  | y :: ys => by
    simp only [insertTrans]
    split_ifs with hc
    · exact ((insertTrans_perm x ys).cons y).trans (List.Perm.swap x y ys)
    · exact List.Perm.refl _

lemma sortTranscodes_perm : ∀ l : List Transcode, (sortTranscodes l).Perm l
  | [] => List.Perm.refl _
  | x :: xs => (insertTrans_perm x (sortTranscodes xs)).trans ((sortTranscodes_perm xs).cons x)

lemma pairwise_insertTrans {x : Transcode} : ∀ {l : List Transcode},
    l.Pairwise (fun a b => transLess b a = false) →
    (insertTrans x l).Pairwise (fun a b => transLess b a = false)
  | [], _ => by simp [insertTrans]
  | y :: ys, h => by
    obtain ⟨hy, hys⟩ := List.pairwise_cons.mp h
    simp only [insertTrans]
    split_ifs with hc
    · refine List.pairwise_cons.mpr ⟨?_, pairwise_insertTrans hys⟩
      intro z hz
      rcases mem_insertTrans hz with rfl | hz
      · exact transLess_asymm hc
      · exact hy z hz
    · refine List.pairwise_cons.mpr ⟨?_, h⟩
      intro z hz
      rcases List.mem_cons.mp hz with rfl | hz
      · exact Bool.of_not_eq_true hc
      · exact transLess_neg_trans (Bool.of_not_eq_true hc) (hy z hz)

lemma sortTranscodes_pairwise : ∀ l : List Transcode,
    (sortTranscodes l).Pairwise (fun a b => transLess b a = false)
  | [] => List.Pairwise.nil
  | x :: xs => pairwise_insertTrans (sortTranscodes_pairwise xs)

lemma sortTranscodes_eq_of_perm {l l' : List Transcode} (h : l.Perm l') :
    sortTranscodes l = sortTranscodes l' := by
  have hp : (sortTranscodes l).Perm (sortTranscodes l') :=
    (sortTranscodes_perm l).trans (h.trans (sortTranscodes_perm l').symm)
  exact @List.eq_of_perm_of_sorted Transcode (fun a b => transLess b a = false)
    ⟨fun a b h1 h2 => transLess_antisymm h1 h2⟩ _ _ hp
    (sortTranscodes_pairwise l) (sortTranscodes_pairwise l')

/-! ### The dedup scan -/

lemma dedupScan_sublist : ∀ (l : List Transcode) (seen : List (Int × Int)),
    (dedupScan l seen).Sublist l
  | [], _ => List.Sublist.refl _
  | t :: ts, seen => by
    simp only [dedupScan]
    cases seenLookup t.resolution seen with
    | none => exact (dedupScan_sublist ts _).cons₂ t
    | some prev =>
      by_cases hf : prev < t.framerate
      · simpa [hf] using (dedupScan_sublist ts _).cons₂ t
      · simpa [hf] using (dedupScan_sublist ts seen).cons t

lemma mem_of_mem_dedupScan {u : Transcode} {l : List Transcode} {seen : List (Int × Int)}
    (h : u ∈ dedupScan l seen) : u ∈ l :=
  (dedupScan_sublist l seen).subset h

/-- Core invariant of the scan over a sorted list: the kept entries have
pairwise distinct resolutions, and each kept entry strictly beats whatever
the `seen` map recorded for its resolution on entry. -/
lemma dedupScan_distinct : ∀ (l : List Transcode) (seen : List (Int × Int)),
    l.Pairwise (fun a b => transLess b a = false) →
    ((dedupScan l seen).Pairwise (fun a b => a.resolution ≠ b.resolution) ∧
      ∀ u ∈ dedupScan l seen, ∀ f, seenLookup u.resolution seen = some f → f < u.framerate)
  | [], seen, _ => by simp [dedupScan]
  | t :: ts, seen, hl => by
    obtain ⟨hto, hts⟩ := List.pairwise_cons.mp hl
    have keepCase :
        ∀ seen', seenLookup t.resolution seen' = some t.framerate →
        (∀ r, r ≠ t.resolution → seenLookup r seen' = seenLookup r seen) →
        ((t :: dedupScan ts seen').Pairwise (fun a b => a.resolution ≠ b.resolution) ∧
          ∀ u ∈ dedupScan ts seen', ∀ f,
            seenLookup u.resolution seen = some f → f < u.framerate) := by
      intro seen' hhit hmiss
      obtain ⟨ihp, ihs⟩ := dedupScan_distinct ts seen' hts
      have hne : ∀ u ∈ dedupScan ts seen', t.resolution ≠ u.resolution := by
        intro u hu hres
        have hle : u.framerate ≤ t.framerate :=
          transLess_false_same_res (hto u (mem_of_mem_dedupScan hu)) hres.symm
        have hgt : t.framerate < u.framerate := by
          have := ihs u hu t.framerate
          rw [← hres] at this
          exact this hhit
        omega
      refine ⟨List.pairwise_cons.mpr ⟨hne, ihp⟩, ?_⟩
      intro u hu f hf
      have hur : u.resolution ≠ t.resolution := fun h => hne u hu h.symm
      exact ihs u hu f (by rw [hmiss u.resolution hur]; exact hf)
    simp only [dedupScan]
    cases hseen : seenLookup t.resolution seen with
    | none =>
      obtain ⟨hp, hs⟩ := keepCase ((t.resolution, t.framerate) :: seen)
        (by simp [seenLookup]) (by intro r hr; simp [seenLookup, hr])
      refine ⟨hp, ?_⟩
      intro u hu f hf
      rcases List.mem_cons.mp hu with rfl | hu
      · rw [hseen] at hf; exact absurd hf (by simp)
      · exact hs u hu f hf
    | some prev =>
      by_cases hfr : prev < t.framerate
      · simp only [if_pos hfr]
        obtain ⟨hp, hs⟩ := keepCase ((t.resolution, t.framerate) :: seen)
          (by simp [seenLookup]) (by intro r hr; simp [seenLookup, hr])
        refine ⟨hp, ?_⟩
        intro u hu f hf
        rcases List.mem_cons.mp hu with rfl | hu
        · rw [hseen] at hf
          injection hf with hf; omega
        · exact hs u hu f hf
      · simp only [if_neg hfr]
        exact dedupScan_distinct ts seen hts

/-- Every input element is represented in the scan output: either some kept
entry has its resolution and at least its framerate, or the incoming `seen`
map already recorded at least its framerate for its resolution. -/
lemma dedupScan_covers : ∀ (l : List Transcode) (seen : List (Int × Int)),
    ∀ t ∈ l,
      (∃ u, u ∈ dedupScan l seen ∧ u.resolution = t.resolution ∧
        t.framerate ≤ u.framerate) ∨
      (∃ f, seenLookup t.resolution seen = some f ∧ t.framerate ≤ f)
  | [], _, t, ht => absurd ht (List.not_mem_nil t)
  | t0 :: ts, seen, t, ht => by
    have keepCase :
        ∀ seen', seenLookup t0.resolution seen' = some t0.framerate →
        (∀ r, r ≠ t0.resolution → seenLookup r seen' = seenLookup r seen) →
        (∃ u, u ∈ t0 :: dedupScan ts seen' ∧ u.resolution = t.resolution ∧
          t.framerate ≤ u.framerate) ∨
        (∃ f, seenLookup t.resolution seen = some f ∧ t.framerate ≤ f) := by
      intro seen' hhit hmiss
      rcases List.mem_cons.mp ht with rfl | hts
      · exact Or.inl ⟨t, List.mem_cons_self _ _, rfl, le_refl _⟩
      · rcases dedupScan_covers ts seen' t hts with ⟨u, hu, hur, huf⟩ | ⟨f, hf, hle⟩
        · exact Or.inl ⟨u, List.mem_cons_of_mem _ hu, hur, huf⟩
        · by_cases hres : t.resolution = t0.resolution
          · rw [hres, hhit] at hf
            injection hf with hf
            exact Or.inl ⟨t0, List.mem_cons_self _ _, hres.symm, by omega⟩
          · exact Or.inr ⟨f, by rw [← hmiss t.resolution hres]; exact hf, hle⟩
    simp only [dedupScan]
    cases hseen : seenLookup t0.resolution seen with
    | none =>
      exact keepCase _ (by simp [seenLookup]) (by intro r hr; simp [seenLookup, hr])
    | some prev =>
      by_cases hfr : prev < t0.framerate
      · simp only [if_pos hfr]
        exact keepCase _ (by simp [seenLookup]) (by intro r hr; simp [seenLookup, hr])
      · simp only [if_neg hfr]
        rcases List.mem_cons.mp ht with rfl | hts
        · exact Or.inr ⟨prev, hseen, by omega⟩
        · exact dedupScan_covers ts seen t hts

/-! ### Derived facts about removeDuplicateTranscodes -/

lemma mem_of_mem_removeDuplicateTranscodes {t : Transcode} {l : List Transcode}
    (h : t ∈ removeDuplicateTranscodes l) : t ∈ l :=
  (sortTranscodes_perm l).subset (mem_of_mem_dedupScan h)

lemma removeDuplicateTranscodes_pairwiseR (l : List Transcode) :
    (removeDuplicateTranscodes l).Pairwise (fun a b => transLess b a = false) :=
  List.Pairwise.sublist (dedupScan_sublist (sortTranscodes l) []) (sortTranscodes_pairwise l)

lemma removeDuplicateTranscodes_distinct (l : List Transcode) :
    (removeDuplicateTranscodes l).Pairwise (fun a b => a.resolution ≠ b.resolution) :=
  (dedupScan_distinct (sortTranscodes l) [] (sortTranscodes_pairwise l)).1

lemma removeDuplicateTranscodes_perm_invariant {l l' : List Transcode} (h : l.Perm l') :
    removeDuplicateTranscodes l = removeDuplicateTranscodes l' := by
  unfold removeDuplicateTranscodes
  rw [sortTranscodes_eq_of_perm h]

lemma pairwise_res_unique {out : List Transcode}
    (h : out.Pairwise fun a b => a.resolution ≠ b.resolution) :
    ∀ u ∈ out, ∀ u2 ∈ out, u.resolution = u2.resolution → u = u2 := by
  induction out with
  | nil => intro u hu; exact absurd hu (List.not_mem_nil u)
  | cons a as ih =>
    obtain ⟨ha, has⟩ := List.pairwise_cons.mp h
    intro u hu u2 hu2 hres
    rcases List.mem_cons.mp hu with h1 | h1
    · rcases List.mem_cons.mp hu2 with h2 | h2
      · rw [h1, h2]
      · subst h1; exact absurd hres (ha u2 h2)
    · rcases List.mem_cons.mp hu2 with h2 | h2
      · subst h2; exact absurd hres.symm (ha u h1)
      · exact ih has u h1 u2 h2 hres

lemma removeDuplicateTranscodes_best {l : List Transcode} {t : Transcode} (ht : t ∈ l) :
    ∃ u, u ∈ removeDuplicateTranscodes l ∧ u ∈ l ∧ u.resolution = t.resolution ∧
      ∀ t2 ∈ l, t2.resolution = t.resolution → t2.framerate ≤ u.framerate := by
  have hcov := dedupScan_covers (sortTranscodes l) []
  have hts : t ∈ sortTranscodes l := ((sortTranscodes_perm l).mem_iff).mpr ht
  rcases hcov t hts with ⟨u, hu, hur, huf⟩ | ⟨f, hf, hle⟩
  · refine ⟨u, hu, mem_of_mem_removeDuplicateTranscodes hu, hur, ?_⟩
    intro t2 ht2 hres2
    have ht2s : t2 ∈ sortTranscodes l := ((sortTranscodes_perm l).mem_iff).mpr ht2
    rcases hcov t2 ht2s with ⟨u2, hu2, hur2, huf2⟩ | ⟨f2, hf2, hle2⟩
    · have heq : u2 = u :=
        pairwise_res_unique (removeDuplicateTranscodes_distinct l) u2 hu2 u hu
          (by rw [hur2, hres2, ← hur])
      exact heq ▸ huf2
    · exact absurd hf2 (by simp [seenLookup])
  · exact absurd hf (by simp [seenLookup])

/-! ### Facts about the per-token loop body -/

lemma processToken_eq_parse_validate (sR sF : Int) (v : List Char) :
    processToken sR sF v = (parseToken v).bind (validate sR sF) := by
  unfold processToken parseToken validate
  cases atoi ((splitOnP v).headD []) with
  | none => rfl
  | some r =>
    cases hfr : (if (splitOnP v).length = 2 ∧ (splitOnP v).getD 1 [] ≠ [] then
        atoi ((splitOnP v).getD 1 []) else some 30) with
    | none => by_cases h : sR ≤ r <;> simp [h, hfr]
    | some f => by_cases h : sR ≤ r <;> simp [h, hfr]

/-- Every candidate the loop body accepts has framerate at most the source
framerate and resolution strictly below the source resolution. -/
lemma processToken_some {sR sF : Int} {v : List Char} {t : Transcode}
    (h : processToken sR sF v = some t) : t.framerate ≤ sF ∧ t.resolution < sR := by
  unfold processToken at h
  split at h
  · exact absurd h (by simp)
  · rename_i r hres
    split at h
    · exact absurd h (by simp)
    · rename_i hle
      split at h
      · exact absurd h (by simp)
      · rename_i f hfr
        simp only [] at h
        by_cases hclamp : sF < f
        · simp only [if_pos hclamp] at h
          split at h
          · exact absurd h (by simp)
          · injection h with h
            subst h
            exact ⟨le_refl sF, show r < sR by omega⟩
        · simp only [if_neg hclamp] at h
          split at h
          · exact absurd h (by simp)
          · injection h with h
            subst h
            exact ⟨show f ≤ sF by omega, show r < sR by omega⟩

lemma mem_getTranscoders {sR sF : Int} {cfg : Config} {t : Transcode}
    (h : t ∈ getTranscoders sR sF cfg) :
    ∃ v ∈ cfg.transcoders, processToken sR sF v = some t := by
  unfold getTranscoders at h
  exact List.mem_filterMap.mp (mem_of_mem_removeDuplicateTranscodes h)

lemma splitOnP_ne_nil : ∀ v : List Char, splitOnP v ≠ []
  | [] => by simp [splitOnP]
  | c :: cs => by
    simp only [splitOnP]
    cases splitOnP cs with
    | nil => simp
    | cons s ss => by_cases hc : c = 'p' <;> simp [hc]

lemma headD_mem_splitOnP (v : List Char) : (splitOnP v).headD [] ∈ splitOnP v := by
  cases h : splitOnP v with
  | nil => exact absurd h (splitOnP_ne_nil v)
  | cons a as => simp

/-! ### Decimal rendering and its round-trip through the parser -/

lemma digitVal_digitChar {d : Nat} (h : d < 10) : digitVal (digitChar d) = some d := by
  interval_cases d <;> decide

lemma digitChar_ne (d : Nat) : digitChar d ≠ 'p' ∧ digitChar d ≠ '-' ∧ digitChar d ≠ '+' := by
  by_cases h : d < 10
  · interval_cases d <;> decide
  · have h9 : digitChar d = '9' := by
      unfold digitChar
      split
      all_goals first | omega | rfl
    rw [h9]
    decide

lemma renderNat_ne_nil (n : Nat) : renderNat n ≠ [] := by
  rw [renderNat]
  split <;> simp

lemma renderNat_no_special (n : Nat) : ∀ c ∈ renderNat n,
    c ≠ 'p' ∧ c ≠ '-' ∧ c ≠ '+' := by
  induction n using Nat.strong_induction_on with
  | _ n ih =>
    intro c hc
    by_cases h : n < 10
    · rw [renderNat, if_pos h] at hc
      rcases List.mem_singleton.mp hc with rfl
      exact digitChar_ne n
    · rw [renderNat, if_neg h] at hc
      rcases List.mem_append.mp hc with hc | hc
      · exact ih (n / 10) (Nat.div_lt_self (by omega) (by omega)) c hc
      · rcases List.mem_singleton.mp hc with rfl
        exact digitChar_ne (n % 10)

lemma renderNat_no_p (n : Nat) : 'p' ∉ renderNat n :=
  fun h => (renderNat_no_special n 'p' h).1 rfl

lemma parseNatAux_append (xs ys : List Char) (a : Nat) :
    parseNatAux (xs ++ ys) a = (parseNatAux xs a).bind fun m => parseNatAux ys m := by
  induction xs generalizing a with
  | nil => simp [parseNatAux]
  | cons c cs ih =>
    simp only [List.cons_append, parseNatAux]
    cases hd : digitVal c with
    | none => simp
    | some d => simp [ih]

lemma parseNatAux_renderNat (n : Nat) : ∀ a : Nat,
    parseNatAux (renderNat n) a = some (a * 10 ^ (renderNat n).length + n) := by
  induction n using Nat.strong_induction_on with
  | _ n ih =>
    intro a
    by_cases h : n < 10
    · rw [renderNat, if_pos h]
      simp only [parseNatAux, digitVal_digitChar h, List.length_singleton, pow_one,
        Option.some.injEq]
      ring
    · rw [renderNat, if_neg h]
      rw [parseNatAux_append, ih (n / 10) (Nat.div_lt_self (by omega) (by omega)) a]
      simp only [Option.some_bind]
      simp only [parseNatAux, digitVal_digitChar (Nat.mod_lt n (by omega)),
        List.length_append, List.length_singleton, Option.some.injEq]
      rw [pow_succ]
      have hmod : 10 * (n / 10) + n % 10 = n := by omega
      generalize (10 : Nat) ^ (renderNat (n / 10)).length = q
      calc 10 * (a * q + n / 10) + n % 10
          = a * (q * 10) + (10 * (n / 10) + n % 10) := by ring
        _ = a * (q * 10) + n := by rw [hmod]

lemma parseNat_renderNat (n : Nat) : parseNat (renderNat n) = some n := by
  obtain ⟨c, rest, hc⟩ := List.exists_cons_of_ne_nil (renderNat_ne_nil n)
  rw [hc]
  simp only [parseNat]
  rw [← hc, parseNatAux_renderNat]
  simp

lemma atoi_renderNat {n : Nat} (h : n < 2 ^ 63) : atoi (renderNat n) = some (n : Int) := by
  obtain ⟨c, rest, hc⟩ := List.exists_cons_of_ne_nil (renderNat_ne_nil n)
  have hspec := renderNat_no_special n c (by rw [hc]; exact List.mem_cons_self c rest)
  rw [hc]
  unfold atoi
  simp only []
  rw [if_neg hspec.2.1, if_neg hspec.2.2]
  rw [← hc, parseNat_renderNat]
  simp
  omega

lemma atoi_renderNat_overflow {n : Nat} (h : 2 ^ 63 ≤ n) : atoi (renderNat n) = none := by
  obtain ⟨c, rest, hc⟩ := List.exists_cons_of_ne_nil (renderNat_ne_nil n)
  have hspec := renderNat_no_special n c (by rw [hc]; exact List.mem_cons_self c rest)
  rw [hc]
  unfold atoi
  simp only []
  rw [if_neg hspec.2.1, if_neg hspec.2.2]
  rw [← hc, parseNat_renderNat]
  simp
  omega

lemma splitOnP_no_p : ∀ {xs : List Char}, 'p' ∉ xs → splitOnP xs = [xs]
  | [], _ => rfl
  | c :: cs, h => by
    have hc : c ≠ 'p' := fun hh => h (hh ▸ List.mem_cons_self c cs)
    simp only [splitOnP, splitOnP_no_p (fun hh => h (List.mem_cons_of_mem c hh))]
    simp [hc]

lemma splitOnP_append : ∀ {xs : List Char} (ys : List Char), 'p' ∉ xs →
    splitOnP (xs ++ 'p' :: ys) = xs :: splitOnP ys
  | [], ys, _ => by
    simp only [List.nil_append, splitOnP]
    cases h : splitOnP ys with
    | nil => exact absurd h (splitOnP_ne_nil ys)
    | cons s ss => simp
  | c :: cs, ys, h => by
    have hc : c ≠ 'p' := fun hh => h (hh ▸ List.mem_cons_self c cs)
    have ih := @splitOnP_append cs ys (fun hh => h (List.mem_cons_of_mem c hh))
    simp only [List.cons_append, splitOnP, List.append_eq]
    rw [ih]
    simp [hc]

lemma splitOnP_render_pair (r f : Nat) :
    splitOnP (renderNat r ++ 'p' :: renderNat f) = [renderNat r, renderNat f] := by
  rw [splitOnP_append (renderNat f) (renderNat_no_p r), splitOnP_no_p (renderNat_no_p f)]

lemma parseToken_two_segments {v : List Char} {s1 s2 : List Char}
    (hs : splitOnP v = [s1, s2]) :
    parseToken v =
      match atoi s1 with
      | none => none
      | some resolution =>
        match (if s2 ≠ [] then atoi s2 else some 30) with
        | none => none
        | some fr => some ⟨resolution, fr⟩ := by
  unfold parseToken
  rw [hs]
  simp [List.getD]

/-! ### Claim theorems -/

/-- C1 (counterexample): the candidate from token `"1920p15"` has resolution
equal to the source resolution 1920 and framerate 15 strictly below the
source framerate 30, yet the resolution pass outputs nothing: the claim that
such a candidate appears in the output is false on the code, whose upscale
check uses `sourceResolution <= resolution`. -/
theorem c1_counterexample :
    parseToken ['1','9','2','0','p','1','5'] = some ⟨1920, 15⟩ ∧
    (15 : Int) < 30 ∧
    getTranscoders 1920 30 (cfgOf [['1','9','2','0','p','1','5']]) = [] := by decide

/-- C1 (amended): every candidate whose resolution equals the source
resolution is rejected by the resolution check itself — which uses `<=`,
not strict `>` — before its framerate segment is even examined, so no
entry of the output has resolution equal to the source resolution. -/
theorem c1_equal_resolution_rejected (sR sF : Int) (cfg : Config) (v : List Char)
    (h : atoi ((splitOnP v).headD []) = some sR) :
    processToken sR sF v = none ∧
      ∀ t ∈ getTranscoders sR sF cfg, t.resolution ≠ sR := by
  constructor
  · unfold processToken
    rw [h]
    simp
  · intro t ht
    obtain ⟨v2, hv2, hp⟩ := mem_getTranscoders ht
    have := (processToken_some hp).2
    omega

/-- C1 (witness): the amended theorem applied to the token `"1920p15"`. -/
theorem c1_witness :
    processToken 1920 30 ['1','9','2','0','p','1','5'] = none ∧
      ∀ t ∈ getTranscoders 1920 30 (cfgOf [['1','9','2','0','p','1','5']]), t.resolution ≠ 1920 :=
  c1_equal_resolution_rejected 1920 30
    (cfgOf [['1','9','2','0','p','1','5']])
    ['1','9','2','0','p','1','5'] (by decide)

/-- C2: for the token list `["1080p30","720p","480p60","1080p15"]` and
source capabilities `{resolution 1920, framerate 30}`, the full pipeline
(parse, validate, deduplicate) returns exactly
`[{1080,30},{720,30},{480,30}]` in that order. -/
theorem c2_end_to_end :
    getTranscoders 1920 30
      (cfgOf [['1','0','8','0','p','3','0'], ['7','2','0','p'],
          ['4','8','0','p','6','0'], ['1','0','8','0','p','1','5']]) =
      [⟨1080, 30⟩, ⟨720, 30⟩, ⟨480, 30⟩] := by decide

/-- C3 (counterexample): the token `"480pxp"` has a present, non-empty
second segment `"x"` that does not parse as a positive integer, yet a
candidate `{480, 30}` is produced (the framerate branch requires exactly
two segments, so a third segment disables it); likewise `"480p-5"` has a
second segment that is not a positive integer, yet `{480, -5}` is
produced. -/
theorem c3_counterexample :
    splitOnP ['4','8','0','p','x','p'] = [['4','8','0'], ['x'], []] ∧
    atoi ['x'] = none ∧
    getTranscoders 1920 30 (cfgOf [['4','8','0','p','x','p']]) = [⟨480, 30⟩] ∧
    splitOnP ['4','8','0','p','-','5'] = [['4','8','0'], ['-','5']] ∧
    atoi ['-','5'] = some (-5) ∧
    getTranscoders 1920 30 (cfgOf [['4','8','0','p','-','5']]) = [⟨480, -5⟩] := by decide

/-- C3 (amended): for every token that splits on `p` into exactly two
segments whose second segment is present, non-empty, and fails Go integer
parsing (`strconv.Atoi`), and for every source capabilities value, the
token is rejected: no candidate is produced from it. -/
theorem c3_malformed_framerate_rejected (sR sF : Int) (v : List Char) (s1 s2 : List Char)
    (hsplit : splitOnP v = [s1, s2]) (hne : s2 ≠ []) (hbad : atoi s2 = none) :
    processToken sR sF v = none := by
  unfold processToken
  rw [hsplit]
  cases hres : atoi ([s1, s2].headD []) with
  | none => rfl
  | some r =>
    by_cases hle : sR ≤ r
    · simp [hle]
    · simp [hle, hne, hbad]

/-- C3 (witness): the amended theorem applied to the token `"480px"`. -/
theorem c3_witness : processToken 1920 30 ['4','8','0','p','x'] = none :=
  c3_malformed_framerate_rejected 1920 30 ['4','8','0','p','x'] ['4','8','0'] ['x']
    (by decide) (by decide) (by decide)

/-- C4 (counterexample): with positive source capabilities, the token
`"0p"` produces the output entry `{0, 30}` (resolution not `> 0`) and the
token `"720p0"` produces `{720, 0}` (framerate not `> 0`): `strconv.Atoi`
imposes no positivity. -/
theorem c4_counterexample :
    getTranscoders 1920 30 (cfgOf [['0','p']]) = [⟨0, 30⟩] ∧
    getTranscoders 1920 30 (cfgOf [['7','2','0','p','0']]) = [⟨720, 0⟩] := by decide

/-- C4 (amended): if the source capabilities are positive and every token
is positivity-clean (each segment `atoi` accepts parses to a strictly
positive value), then every entry of the final resolved-profile sequence
has strictly positive resolution and framerate. -/
theorem c4_positive_entries (sR sF : Int) (cfg : Config) (h1 : 0 < sR) (h2 : 0 < sF)
    (h3 : ∀ v ∈ cfg.transcoders, tokenPositive v = true) :
    ∀ t ∈ getTranscoders sR sF cfg, 0 < t.resolution ∧ 0 < t.framerate := by
  intro t ht
  obtain ⟨v, hv, hp⟩ := mem_getTranscoders ht
  have hpos := h3 v hv
  rw [tokenPositive, List.all_eq_true] at hpos
  unfold processToken at hp
  split at hp
  · exact absurd hp (by simp)
  · rename_i r hres
    have hrpos : 0 < r := by
      have := hpos _ (headD_mem_splitOnP v)
      rw [hres] at this
      simpa using this
    split at hp
    · exact absurd hp (by simp)
    · rename_i hle
      split at hp
      · exact absurd hp (by simp)
      · rename_i f hfr
        have hfpos : 0 < f := by
          by_cases hc : (splitOnP v).length = 2 ∧ (splitOnP v).getD 1 [] ≠ []
          · rw [if_pos hc] at hfr
            have hmem2 : (splitOnP v).getD 1 [] ∈ splitOnP v := by
              obtain ⟨a, b, hab⟩ := List.length_eq_two.mp hc.1
              rw [hab]
              simp
            have := hpos _ hmem2
            rw [hfr] at this
            simpa using this
          · rw [if_neg hc] at hfr
            injection hfr with hfr
            omega
        simp only [] at hp
        by_cases hclamp : sF < f
        · simp only [if_pos hclamp] at hp
          split at hp
          · exact absurd hp (by simp)
          · injection hp with hp
            subst hp
            exact ⟨show 0 < r by omega, show 0 < sF by omega⟩
        · simp only [if_neg hclamp] at hp
          split at hp
          · exact absurd hp (by simp)
          · injection hp with hp
            subst hp
            exact ⟨show 0 < r by omega, show 0 < f by omega⟩

/-- C4 (witness): the amended theorem applied to the token `"720p60"` with
source `{1920, 30}`, whose output entry is `{720, 30}`. -/
theorem c4_witness :
    0 < (Transcode.mk 720 30).resolution ∧ 0 < (Transcode.mk 720 30).framerate :=
  c4_positive_entries 1920 30
    { seed := "", title := "", owner := "", transcoders := [['7','2','0','p','6','0']] }
    (by decide) (by decide) (by decide) ⟨720, 30⟩ (by decide)

/-- C5: for every token list and source capabilities, the final sequence is
sorted by resolution descending then framerate descending, no two entries
share a resolution, and hence resolutions are strictly descending. -/
theorem c5_output_ordering (sR sF : Int) (cfg : Config) :
    ((getTranscoders sR sF cfg).Pairwise fun a b =>
      b.resolution < a.resolution ∨
        (b.resolution = a.resolution ∧ b.framerate ≤ a.framerate)) ∧
    ((getTranscoders sR sF cfg).Pairwise fun a b => a.resolution ≠ b.resolution) ∧
    ((getTranscoders sR sF cfg).Pairwise fun a b => b.resolution < a.resolution) := by
  have h1 := removeDuplicateTranscodes_pairwiseR
    (cfg.transcoders.filterMap (processToken sR sF))
  have h2 := removeDuplicateTranscodes_distinct
    (cfg.transcoders.filterMap (processToken sR sF))
  have hA : (getTranscoders sR sF cfg).Pairwise fun a b =>
      b.resolution < a.resolution ∨
        (b.resolution = a.resolution ∧ b.framerate ≤ a.framerate) :=
    h1.imp fun h => transLess_false_elim h
  have hB : (getTranscoders sR sF cfg).Pairwise fun a b => a.resolution ≠ b.resolution := h2
  refine ⟨hA, hB, ?_⟩
  exact (hA.and hB).imp fun h => by
    rcases h with ⟨h1 | ⟨he, _⟩, hne⟩
    · exact h1
    · exact absurd he.symm hne

/-- C6: deduplication keeps, per distinct resolution of the input, exactly
one entry, holding the maximum framerate among that resolution's candidates
(an input element of that resolution whose framerate dominates all of
them); the result is invariant under permutation of the input; and the
worked example `["1080p60","1080p30"]` at source `{1920,60}` yields exactly
`[{1080,60}]`. -/
theorem c6_dedup_semantics (l : List Transcode) :
    (∀ t ∈ l, ∃ u, u ∈ removeDuplicateTranscodes l ∧ u ∈ l ∧
        u.resolution = t.resolution ∧
        ∀ t2 ∈ l, t2.resolution = t.resolution → t2.framerate ≤ u.framerate) ∧
    ((removeDuplicateTranscodes l).Pairwise fun a b => a.resolution ≠ b.resolution) ∧
    (∀ l2, l.Perm l2 → removeDuplicateTranscodes l = removeDuplicateTranscodes l2) ∧
    getTranscoders 1920 60 (cfgOf [['1','0','8','0','p','6','0'], ['1','0','8','0','p','3','0']]) =
      [⟨1080, 60⟩] := by
  refine ⟨?_, removeDuplicateTranscodes_distinct l, ?_, by decide⟩
  · intro t ht
    exact removeDuplicateTranscodes_best ht
  · intro l2 h
    exact removeDuplicateTranscodes_perm_invariant h

/-- C6 (witness): the theorem applied to the concrete duplicate-resolution
input `[{720,30},{720,60}]` at its first element. -/
theorem c6_witness :
    ∃ u, u ∈ removeDuplicateTranscodes [Transcode.mk 720 30, Transcode.mk 720 60] ∧
      u ∈ [Transcode.mk 720 30, Transcode.mk 720 60] ∧
      u.resolution = (Transcode.mk 720 30).resolution ∧
      ∀ t2 ∈ [Transcode.mk 720 30, Transcode.mk 720 60],
        t2.resolution = (Transcode.mk 720 30).resolution →
          t2.framerate ≤ u.framerate :=
  (c6_dedup_semantics [Transcode.mk 720 30, Transcode.mk 720 60]).1
    (Transcode.mk 720 30) (by decide)

/-- C8: a candidate whose framerate exceeds the source framerate is kept
with its framerate clamped to exactly the source framerate (when its
resolution admits it); every entry of the final output has framerate at
most the source framerate; and `"720p120"` at source `{1920,60}` yields
`{720,60}`. -/
theorem c8_framerate_clamp (sR sF : Int) (cfg : Config) (v : List Char) (r f : Int)
    (hp : parseToken v = some ⟨r, f⟩) (hf : sF < f) (hr : r < sR) :
    processToken sR sF v = some ⟨r, sF⟩ ∧
    (∀ t ∈ getTranscoders sR sF cfg, t.framerate ≤ sF) ∧
    getTranscoders 1920 60 (cfgOf [['7','2','0','p','1','2','0']]) = [⟨720, 60⟩] := by
  refine ⟨?_, ?_, by decide⟩
  · rw [processToken_eq_parse_validate, hp]
    have h1 : ¬ sR ≤ r := by omega
    have h2 : sR ≠ r := by omega
    simp [validate, hf, h1, h2]
  · intro t ht
    obtain ⟨v2, hv2, hp2⟩ := mem_getTranscoders ht
    exact (processToken_some hp2).1

/-- C8 (witness): the theorem applied to the token `"720p120"` at source
`{1920, 60}`. -/
theorem c8_witness :
    processToken 1920 60 ['7','2','0','p','1','2','0'] = some ⟨720, 60⟩ ∧
    (∀ t ∈ getTranscoders 1920 60 (cfgOf [['7','2','0','p','1','2','0']]), t.framerate ≤ 60) ∧
    getTranscoders 1920 60 (cfgOf [['7','2','0','p','1','2','0']]) = [⟨720, 60⟩] :=
  c8_framerate_clamp 1920 60
    (cfgOf [['7','2','0','p','1','2','0']])
    ['7','2','0','p','1','2','0'] 720 120 (by decide) (by decide) (by decide)

/-- C9: running the configuration bootstrap when a configuration file
already exists never mutates that file, whatever its contents decode to
and whichever optional fields are missing. -/
theorem c9_bootstrap_idempotent (decode : String → Option Config)
    (encode : Config → String) (newSeed : String) (fs : GoFS) (contents : String)
    (h : fs.configFile = some contents) :
    (newConfig decode encode newSeed fs).1.configFile = some contents := by
  have h1 : (generateMediaMTXConfig fs).configFile = some contents := by
    unfold generateMediaMTXConfig
    cases fs.mediamtxFile <;> simpa using h
  simp only [newConfig]
  rw [h1]
  cases hd : decode contents <;> simp [hd, h1]

/-- C9 (witness): the theorem applied to a concrete state holding a
configuration file, with a decoder that fails and one that succeeds being
irrelevant to the stored contents. -/
theorem c9_witness :
    (newConfig (fun _ => none) (fun _ => "") "seed"
      ⟨some "contents", none⟩).1.configFile = some "contents" :=
  c9_bootstrap_idempotent (fun _ => none) (fun _ => "") "seed"
    ⟨some "contents", none⟩ "contents" rfl

/-- C10: every entry of the final output has resolution strictly less than
the source resolution; a candidate whose resolution parses to at least the
source resolution is skipped before its framerate segment is examined. -/
theorem c10_strictly_below_source (sR sF : Int) (cfg : Config) (v : List Char) (r : Int)
    (h : atoi ((splitOnP v).headD []) = some r) (hge : sR ≤ r) :
    processToken sR sF v = none ∧
      ∀ t ∈ getTranscoders sR sF cfg, t.resolution < sR := by
  constructor
  · unfold processToken
    rw [h]
    simp [hge]
  · intro t ht
    obtain ⟨v2, hv2, hp⟩ := mem_getTranscoders ht
    exact (processToken_some hp).2

/-- C10 (witness): the theorem applied to the token `"2560p"` at source
`{1920, 30}`. -/
theorem c10_witness :
    processToken 1920 30 ['2','5','6','0','p'] = none ∧
      ∀ t ∈ getTranscoders 1920 30 (cfgOf [['2','5','6','0','p']]), t.resolution < 1920 :=
  c10_strictly_below_source 1920 30
    { seed := "", title := "", owner := "", transcoders := [['2','5','6','0','p']] }
    ['2','5','6','0','p'] 2560 (by decide) (by decide)

/-- C7 (counterexample): for r equal to 2^63 (a positive integer) and
f equal to 30, the token `"<r>p<f>"` does not yield the candidate `{r, f}`:
`strconv.Atoi` rejects the 19-digit rendering of 2^63 as out of range for a
64-bit `int`, so the parser produces nothing (the concrete digit list shown
parses back to exactly 2^63 yet `atoi` returns `none` on it). -/
theorem c7_counterexample :
    parseToken (renderNat (2 ^ 63) ++ 'p' :: renderNat 30) = none ∧
    parseNat ['9','2','2','3','3','7','2','0','3','6','8','5','4','7','7','5','8','0','8'] =
      some (2 ^ 63) ∧
    atoi ['9','2','2','3','3','7','2','0','3','6','8','5','4','7','7','5','8','0','8'] =
      none := by
  refine ⟨?_, by decide, by decide⟩
  rw [parseToken_two_segments (splitOnP_render_pair (2 ^ 63) 30),
    atoi_renderNat_overflow (le_refl (2 ^ 63))]

/-- C7 (amended): for positive integers r and f below 2^63 (the Go 64-bit
`int` range enforced by `strconv.Atoi`), the token `"<r>p<f>"` parses to the
candidate `{r, f}` and the token `"<r>p"` parses to `{r, 30}`; renderings of
values at or above 2^63 fail Atoi's range check and the token is skipped. -/
theorem c7_parse (r f : Nat) (h1 : 0 < r) (h2 : 0 < f) (h3 : r < 2 ^ 63)
    (h4 : f < 2 ^ 63) :
    parseToken (renderNat r ++ 'p' :: renderNat f) = some ⟨(r : Int), (f : Int)⟩ ∧
    parseToken (renderNat r ++ ['p']) = some ⟨(r : Int), 30⟩ := by
  have hsingle : splitOnP (renderNat r ++ ['p']) = [renderNat r, []] := by
    rw [splitOnP_append ([] : List Char) (renderNat_no_p r)]
    rfl
  constructor
  · rw [parseToken_two_segments (splitOnP_render_pair r f), atoi_renderNat h3]
    simp [renderNat_ne_nil f, atoi_renderNat h4]
  · rw [parseToken_two_segments hsingle, atoi_renderNat h3]
    simp

/-- C7 (witness): the amended theorem applied to r = 720, f = 60. -/
theorem c7_witness :
    parseToken (renderNat 720 ++ 'p' :: renderNat 60) = some ⟨(720 : Int), (60 : Int)⟩ ∧
    parseToken (renderNat 720 ++ ['p']) = some ⟨(720 : Int), 30⟩ :=
  c7_parse 720 60 (by decide) (by decide) (by decide) (by decide)

end GoNoice
